import Mathlib

/-!
# Verification of the `wandb-offline-sync-hook` scheduler (`src/wandb_osh/syncer.py`)

This file is a shallow embedding of `WandbSyncer` from `src/wandb_osh/syncer.py`:
a bounded-concurrency job scheduler that each cycle (i) reclaims completed jobs
(`_collect_done`), (ii) ingests targets from `*.command` files in a command
directory, (iii) dispatches pending targets to a worker pool (`_schedule`),
(iv) deletes the command files read this cycle, and (v) sleeps.

Modelling choices:
* Filesystem paths are `String`s.  `Path(...)` construction in Python performs a
  purely syntactic normalization (collapsing repeated `/` and `.` segments,
  never resolving `..`); this is `pyPathNorm`.  The operating system's view of
  which directory a path denotes additionally resolves `..` lexically; this is
  `resolveLex` (relative paths are resolved against a fixed root, and symlinks
  are outside the model).  Directory existence is an environment oracle: a list
  of existing directories given as resolved absolute paths.
* Times (`time.time()` differences, `time.sleep` arguments, the `wait`
  configuration) are rationals.
* Each loop cycle observes an `Env`: the command files found by the scan
  (content `none` models a read error raised by `read_text`), the directory
  oracle, which in-flight jobs are observed complete and with which outcome,
  which command files are still on disk at cleanup time, and the elapsed
  wall-clock time at the throttle point.
* Fallible operations return `Except String`; an uncaught Python exception that
  terminates the loop is an `Except.error`.
* The observable actions of a cycle (log lines, submissions, file writes and
  deletions, sleeps) are recorded as a trace of `Event`s.
-/

namespace WandbOsh

/-! ## Path model -/

/-- Split a character list at `/` separators, like Python `str.split("/")`. -/
def splitSlash : List Char → List Char → List String
  | acc, [] => [String.mk acc.reverse]
  | acc, c :: cs =>
    if c = '/' then String.mk acc.reverse :: splitSlash [] cs
    else splitSlash (c :: acc) cs

/-- The `/`-separated components of a path string (empty components kept). -/
def pathComps (s : String) : List String := splitSlash [] s.data

/-- Join components with `/` separators. -/
def joinSlash : List String → String
  | [] => ""
  | [x] => x
  | x :: y :: xs => x ++ "/" ++ joinSlash (y :: xs)

/-- Number of leading `/` characters of the string. -/
def leadingSlashes : List Char → Nat
  | '/' :: cs => leadingSlashes cs + 1
  | _ => 0

/-- The root prefix `pathlib` keeps: exactly two leading slashes are preserved
as `//`, any other positive number collapses to `/`. -/
def rootOf (s : String) : String :=
  if leadingSlashes s.data = 2 then "//"
  else if 1 ≤ leadingSlashes s.data then "/" else ""

/-- `str(PurePosixPath(s))`: the purely syntactic normalization performed by
Python's `Path` constructor — drop empty and `.` components, keep `..`,
keep (non-)absoluteness.  This is the Target identity actually used by the
scheduler (`Path(command_file.read_text())`). -/
def pyPathNorm (s : String) : String :=
  let comps := (pathComps s).filter (fun c => c != "" && c != ".")
  let root := rootOf s
  if comps.isEmpty then (if root = "" then "." else root) else root ++ joinSlash comps

/-- Lexically resolve path components: drop empty and `.`, let `..` pop the
previous component (or stay at the root). -/
def resolveComps : List String → List String → List String
  | acc, [] => acc.reverse
  | acc, c :: cs =>
    if c == "" || c == "." then resolveComps acc cs
    else if c == ".." then resolveComps acc.tail cs
    else resolveComps (c :: acc) cs

/-- The lexically resolved components of a path string. -/
def normComps (s : String) : List String := resolveComps [] (pathComps s)

/-- The resolved absolute form of a path: the identity under which the
operating system answers `is_dir` (relative paths are resolved against the
root; symlinks are outside the model). -/
def resolveLex (s : String) : String := "/" ++ joinSlash (normComps s)

/-- All ancestors of a path in resolved absolute form, from the root down to
the path itself — the directories `mkdir(parents=True)` guarantees to exist. -/
def ancestorPaths (p : String) : List String :=
  (List.range ((normComps p).length + 1)).map
    (fun k => "/" ++ joinSlash ((normComps p).take k))

/-- `target.is_dir()`: the environment's directory oracle holds resolved
absolute paths. -/
def isDir (dirs : List String) (p : String) : Bool := dirs.contains (resolveLex p)

/-! ## Data model -/

/-- Outcome of one job as observed through its `Future`:
`subprocess.run` either returns (success or a non-timeout failure — the
scheduler does not distinguish these) or raises `subprocess.TimeoutExpired`. -/
inductive Outcome
  | success
  | failure
  | timeout
deriving DecidableEq, Repr

/-- Observable actions of the scheduler, in trace order. -/
inductive Event
  /-- `logger.error("Command file %s points to non-existing directory %s", command_file, target)` -/
  | errorNonexistent (commandFile : String) (target : String)
  /-- `logger.warning("Syncing %s timed out. Trying later.", target)` -/
  | warnTimeout (target : String)
  /-- the requeue hook re-signals the target by writing a fresh command file -/
  | writeCommandFile (target : String)
  /-- `logger.info("Syncing %s...", target)` -/
  | infoSync (target : String)
  /-- `executor.submit(self.sync, target)`, returning a fresh job handle -/
  | submit (handle : Nat) (target : String)
  /-- the unconditional `time.sleep(0.25)` in the loop body -/
  | fixedSleep
  /-- `cf.unlink()` -/
  | deleteFile (f : String)
  /-- the throttle `time.sleep(...)` at the end of the cycle; its duration is
  `throttleDuration env.elapsed cfg.wait` -/
  | throttleSleep
deriving DecidableEq, Repr

/-- The fixed configuration of a `WandbSyncer` instance.  `testMode` models
the presence of `PYTEST_CURRENT_TEST` in the environment, the externally
injected stop signal. -/
structure Config where
  commandDir : String
  wait : ℚ
  timeout : ℚ
  maxWorkers : Int
  testMode : Bool
deriving DecidableEq, Repr

/-- The mutable scheduler state: the Pending Set (`self._pending`, a set of
Paths, modelled as a duplicate-free list of normalized path strings in
insertion order), the In-Flight Table (`self._in_progress`, a dict from
`Future` to Path, modelled as an association list from job handles), and a
counter supplying fresh handles. -/
structure SyncerState where
  pending : List String
  inProgress : List (Nat × String)
  nextHandle : Nat
deriving DecidableEq, Repr

/-- Freshly constructed scheduler state: both collections empty. -/
def initState : SyncerState := ⟨[], [], 0⟩

/-- What one poll cycle observes of the outside world. -/
structure Env where
  /-- command files found by `glob("*.command")`, in scan order: file name and
  content; `none` content models `read_text` raising an `OSError`. -/
  files : List (String × Option String)
  /-- existing directories, as resolved absolute paths. -/
  dirs : List String
  /-- jobs observed complete this cycle (`future.done()`), with the outcome
  `future.result()` reports. -/
  doneOutcome : List (Nat × Outcome)
  /-- command files still on disk when the cleanup pass runs (`cf.is_file()`);
  files absent here model concurrent external deletion. -/
  stillPresent : List String
  /-- `time.time() - start_time` at the throttle point. -/
  elapsed : ℚ
  /-- outcomes of any jobs still running at the shutdown drain
  (`_wait_for_all` blocks until all are done). -/
  finalOutcome : List (Nat × Outcome)
deriving Repr

instance {ε α : Type} [DecidableEq ε] [DecidableEq α] : DecidableEq (Except ε α) := fun x y =>
  match x, y with
  | .ok a, .ok b =>
    if h : a = b then .isTrue (by rw [h]) else .isFalse (by intro hc; cases hc; exact h rfl)
  | .error a, .error b =>
    if h : a = b then .isTrue (by rw [h]) else .isFalse (by intro hc; cases hc; exact h rfl)
  | .ok _, .error _ => .isFalse (by intro hc; cases hc)
  | .error _, .ok _ => .isFalse (by intro hc; cases hc)

/-! ## Operations -/

/-- `set.add`: append the target unless already present. -/
def insertTarget (t : String) (pending : List String) : List String :=
  if t ∈ pending then pending else pending ++ [t]

/-- `self._pending.update(targets)`. -/
def updateTargets (pending : List String) (ts : List String) : List String :=
  ts.foldl (fun p t => insertTarget t p) pending

/-- Whether (and how) a job handle is observed complete this cycle. -/
def lookupOutcome (xs : List (Nat × Outcome)) (h : Nat) : Option Outcome :=
  (xs.find? (fun p => p.1 == h)).map Prod.snd

/-- Outcome of a job at the shutdown drain, when every job is done
(missing entries default to a normal return). -/
def lookupOutcomeTotal (xs : List (Nat × Outcome)) (h : Nat) : Outcome :=
  ((xs.find? (fun p => p.1 == h)).map Prod.snd).getD .success

/-- Modelled from the spec: `TriggerWandbSyncHook` lives in
`wandb_osh/hooks.py`, which is not among the provided sources.  Per the spec,
`_requeue` invokes it to re-signal "that this Target still needs syncing —
equivalent to writing a fresh command file for it"; we model it as the
`writeCommandFile` event. -/
def triggerHookEvents (target : String) : List Event := [.writeCommandFile target]

/-- The body of `_collect_done`'s loop over the completed futures: pop the
job, and on `TimeoutExpired` log a warning and `_requeue` the target (write a
fresh command file, then `self._pending.add(Path(target))`). -/
def reclaimLoop (done : Nat → Option Outcome) :
    List (Nat × String) → List String → List String × List Event
  | [], pending => (pending, [])
  | p :: rest, pending =>
    match done p.1 with
    | some .timeout =>
      let r := reclaimLoop done rest (insertTarget (pyPathNorm p.2) pending)
      (r.1, .warnTimeout p.2 :: (triggerHookEvents p.2 ++ r.2))
    | _ => reclaimLoop done rest pending

/-- `_collect_done`: remove every job observed complete from the In-Flight
Table; timed-out jobs are requeued. -/
def collectDone (done : Nat → Option Outcome) (s : SyncerState) :
    SyncerState × List Event :=
  let doneJobs := s.inProgress.filter (fun p => (done p.1).isSome)
  let r := reclaimLoop done doneJobs s.pending
  ({ s with pending := r.1,
            inProgress := s.inProgress.filter (fun p => (done p.1).isNone) }, r.2)

/-- The `for target in list(self._pending)` loop of `_schedule`: while
capacity remains, remove a target from Pending, log, submit it and record the
fresh handle in the In-Flight Table. -/
def scheduleGo (avail : Int) (todo : List String) (s : SyncerState)
    (evs : List Event) : SyncerState × List Event :=
  match todo with
  | [] => (s, evs)
  | t :: rest =>
    if avail ≤ 0 then (s, evs)
    else
      scheduleGo (avail - 1) rest
        { pending := s.pending.erase t
          inProgress := s.inProgress ++ [(s.nextHandle, t)]
          nextHandle := s.nextHandle + 1 }
        (evs ++ [.infoSync t, .submit s.nextHandle t])

/-- `_schedule`: `available = self.max_workers - len(self._in_progress)`;
return immediately if no capacity or nothing pending, else run the dispatch
loop over a snapshot of the Pending Set. -/
def schedule (maxWorkers : Int) (s : SyncerState) : SyncerState × List Event :=
  if maxWorkers - (s.inProgress.length : Int) ≤ 0 || s.pending.isEmpty then (s, [])
  else scheduleGo (maxWorkers - (s.inProgress.length : Int)) s.pending s []

/-- The scan loop of `loop()`: for each command file, `read_text` (a `none`
content raises, aborting the whole cycle), record the file for deletion, check
`is_dir` and either log an error or collect the target.  Returns the recorded
command files, the valid targets (in scan order) and the log events. -/
def ingestFiles (dirs : List String) :
    List (String × Option String) →
    Except String (List String × List String × List Event)
  | [] => .ok ([], [], [])
  | (name, none) :: _ => .error ("read error on " ++ name)
  | (name, some content) :: rest =>
    let target := pyPathNorm content
    match ingestFiles dirs rest with
    | .error e => .error e
    | .ok (cfs, ts, evs) =>
      if isDir dirs target then .ok (name :: cfs, target :: ts, evs)
      else .ok (name :: cfs, ts, .errorNonexistent name target :: evs)

/-- `cf.unlink()`: raises (errors) if the file does not exist. -/
def unlinkFile (present : List String) (f : String) : Except String (List String) :=
  if present.contains f then .ok (present.erase f)
  else .error ("unlink of missing file " ++ f)

/-- The cleanup pass of `loop()`: `for cf in command_files: if cf.is_file():
cf.unlink()` — the `is_file` guard protects the fallible `unlink`. -/
def cleanupFiles (present : List String) :
    List String → Except String (List String × List Event)
  | [] => .ok (present, [])
  | f :: rest =>
    if present.contains f then
      match unlinkFile present f with
      | .error e => .error e
      | .ok present' =>
        match cleanupFiles present' rest with
        | .error e => .error e
        | .ok r => .ok (r.1, .deleteFile f :: r.2)
    else cleanupFiles present rest

/-- Duration of the throttle sleep, exactly as written on the last line of
`loop()`: `time.sleep(max(0.0, (time.time() - start_time) - self.wait))`. -/
def throttleDuration (elapsed wait : ℚ) : ℚ := max 0 (elapsed - wait)

/-- The directories in existence for the whole scan, after the cycle's opening
`self.command_dir.mkdir(parents=True, exist_ok=True)` (total: `exist_ok`
tolerates an existing directory). -/
def cycleDirs (cfg : Config) (env : Env) : List String :=
  updateTargets env.dirs (ancestorPaths cfg.commandDir)

/-- One iteration of the `while True` loop of `loop()`: mkdir, reclaim
(`_collect_done`), scan/ingest, `_pending.update`, dispatch (`_schedule`),
`time.sleep(0.25)`, cleanup, and — unless the test-mode stop signal breaks
first — the throttle sleep.  An `Except.error` is an uncaught exception
terminating the loop. -/
def cycleE (cfg : Config) (env : Env) (s : SyncerState) :
    Except String (SyncerState × List Event) :=
  let dirs := cycleDirs cfg env
  let r1 := collectDone (lookupOutcome env.doneOutcome) s
  match ingestFiles dirs env.files with
  | .error e => .error e
  | .ok (cfs, ts, evs2) =>
    let s2 := { r1.1 with pending := updateTargets r1.1.pending ts }
    let r3 := schedule cfg.maxWorkers s2
    match cleanupFiles env.stillPresent cfs with
    | .error e => .error e
    | .ok r4 =>
      let evs5 := if cfg.testMode then [] else [Event.throttleSleep]
      .ok (r3.1, r1.2 ++ evs2 ++ r3.2 ++ [Event.fixedSleep] ++ r4.2 ++ evs5)

/-- `_wait_for_all`: if anything is in flight, block until all jobs are done
and reconcile them through `_collect_done` (at that point every job has an
outcome). -/
def waitForAll (finalOutcome : Nat → Outcome) (s : SyncerState) :
    SyncerState × List Event :=
  if s.inProgress.isEmpty then (s, [])
  else collectDone (fun h => some (finalOutcome h)) s

/-- The `while True` loop of `loop()`, driven by a list of per-cycle
observations.  Returns the state and whether the loop was ended by the
explicit stop signal (`True`) or is still running when observations run out
(`False`); an `Except.error` is the loop dying on an uncaught exception. -/
def runCycles (cfg : Config) :
    List Env → SyncerState → Except String (SyncerState × Bool)
  | [], s => .ok (s, false)
  | env :: rest, s =>
    match cycleE cfg env s with
    | .error e => .error e
    | .ok r =>
      if cfg.testMode then
        .ok ((waitForAll (lookupOutcomeTotal env.finalOutcome) r.1).1, true)
      else runCycles cfg rest r.1

/-- The `WandbSyncer` constructor: rejects `max_workers < 1`. -/
def mkWandbSyncer (commandDir : String) (wait : ℚ) (timeout : ℚ)
    (maxWorkers : Int) (testMode : Bool) : Except String Config :=
  if maxWorkers < 1 then .error "max_workers must be >= 1"
  else .ok ⟨commandDir, wait, timeout, maxWorkers, testMode⟩

/-- The scheduler states reachable from a fresh instance by running cycles
(and, at shutdown, the drain). -/
inductive Reachable (cfg : Config) : SyncerState → Prop
  | init : Reachable cfg initState
  | step (env : Env) (s s' : SyncerState) (tr : List Event) :
      Reachable cfg s → cycleE cfg env s = .ok (s', tr) → Reachable cfg s'
  | drain (out : Nat → Outcome) (s : SyncerState) :
      Reachable cfg s → Reachable cfg (waitForAll out s).1

/-- The targets submitted to the worker pool in a trace. -/
def submitTargets (evs : List Event) : List String :=
  evs.filterMap (fun e => match e with | .submit _ t => some t | _ => none)

/-- Phase of the cycle an event belongs to, in the order the phases run:
reclaim (0), ingest (1), dispatch (2), the fixed sleep (3), cleanup (4),
throttle (5). -/
def phaseOf : Event → Nat
  | .warnTimeout _ => 0
  | .writeCommandFile _ => 0
  | .errorNonexistent _ _ => 1
  | .infoSync _ => 2
  | .submit _ _ => 2
  | .fixedSleep => 3
  | .deleteFile _ => 4
  | .throttleSleep => 5

/-! ## Lemmas about the Pending Set operations -/

theorem mem_insertTarget {x t : String} {p : List String} :
    x ∈ insertTarget t p ↔ x ∈ p ∨ x = t := by
  unfold insertTarget
  split
  · rename_i h
    constructor
    · exact Or.inl
    · rintro (hx | rfl)
      · exact hx
      · exact h
  · simp [or_comm]

theorem insertTarget_nodup {t : String} {p : List String} (h : p.Nodup) :
    (insertTarget t p).Nodup := by
  unfold insertTarget
  split
  · exact h
  · rename_i ht
    refine List.Nodup.append h (List.nodup_singleton t) ?_
    intro x hx hx'
    rw [List.mem_singleton] at hx'
    subst hx'
    exact ht hx

theorem mem_updateTargets {x : String} {p ts : List String} :
    x ∈ updateTargets p ts ↔ x ∈ p ∨ x ∈ ts := by
  induction ts generalizing p with
  | nil => simp [updateTargets]
  | cons t ts ih =>
    show x ∈ updateTargets (insertTarget t p) ts ↔ _
    rw [ih, mem_insertTarget]
    simp only [List.mem_cons]
    tauto

theorem updateTargets_nodup {p ts : List String} (h : p.Nodup) :
    (updateTargets p ts).Nodup := by
  induction ts generalizing p with
  | nil => exact h
  | cons t ts ih => exact ih (insertTarget_nodup h)

theorem count_insertTarget_le {x t : String} {p : List String} (h : p.Nodup) :
    (insertTarget t p).count x ≤ 1 := by
  have := insertTarget_nodup (t := t) h
  exact List.nodup_iff_count_le_one.mp this x

/-! ## Lemmas about the reclaim phase (`_collect_done`) -/

/-- The jobs of a list that are observed to have timed out. -/
def timeoutJobs (done : Nat → Option Outcome) (jobs : List (Nat × String)) :
    List (Nat × String) :=
  jobs.filter (fun p => done p.1 == some Outcome.timeout)

theorem reclaimLoop_pending (done : Nat → Option Outcome)
    (jobs : List (Nat × String)) (pending : List String) :
    (reclaimLoop done jobs pending).1 =
      updateTargets pending ((timeoutJobs done jobs).map (fun p => pyPathNorm p.2)) := by
  induction jobs generalizing pending with
  | nil => rfl
  | cons p rest ih =>
    unfold reclaimLoop timeoutJobs
    rcases hd : done p.1 with _ | o
    · simpa [hd, timeoutJobs] using ih pending
    · cases o with
      | timeout =>
        simp only [hd, List.filter_cons, beq_self_eq_true, if_true]
        simpa [timeoutJobs, updateTargets] using
          ih (insertTarget (pyPathNorm p.2) pending)
      | success => simpa [hd, timeoutJobs] using ih pending
      | failure => simpa [hd, timeoutJobs] using ih pending

theorem reclaimLoop_events (done : Nat → Option Outcome)
    (jobs : List (Nat × String)) (pending : List String) :
    (reclaimLoop done jobs pending).2 =
      (timeoutJobs done jobs).flatMap
        (fun p => [Event.warnTimeout p.2, Event.writeCommandFile p.2]) := by
  induction jobs generalizing pending with
  | nil => rfl
  | cons p rest ih =>
    unfold reclaimLoop timeoutJobs
    rcases hd : done p.1 with _ | o
    · simpa [hd, timeoutJobs] using ih pending
    · cases o with
      | timeout =>
        simp only [hd, List.filter_cons, beq_self_eq_true, if_true]
        simpa [timeoutJobs, triggerHookEvents] using
          ih (insertTarget (pyPathNorm p.2) pending)
      | success => simpa [hd, timeoutJobs] using ih pending
      | failure => simpa [hd, timeoutJobs] using ih pending

theorem timeoutJobs_filter_isSome (done : Nat → Option Outcome)
    (jobs : List (Nat × String)) :
    timeoutJobs done (jobs.filter (fun p => (done p.1).isSome)) =
      timeoutJobs done jobs := by
  unfold timeoutJobs
  rw [List.filter_filter]
  apply List.filter_congr
  intro p _
  rcases h : done p.1 with _ | o <;> simp [h]

theorem collectDone_inProgress (done : Nat → Option Outcome) (s : SyncerState) :
    (collectDone done s).1.inProgress =
      s.inProgress.filter (fun p => (done p.1).isNone) := rfl

theorem collectDone_nextHandle (done : Nat → Option Outcome) (s : SyncerState) :
    (collectDone done s).1.nextHandle = s.nextHandle := rfl

theorem collectDone_pending (done : Nat → Option Outcome) (s : SyncerState) :
    (collectDone done s).1.pending =
      updateTargets s.pending
        ((timeoutJobs done s.inProgress).map (fun p => pyPathNorm p.2)) := by
  show (reclaimLoop done _ _).1 = _
  rw [reclaimLoop_pending, timeoutJobs_filter_isSome]

theorem collectDone_events (done : Nat → Option Outcome) (s : SyncerState) :
    (collectDone done s).2 =
      (timeoutJobs done s.inProgress).flatMap
        (fun p => [Event.warnTimeout p.2, Event.writeCommandFile p.2]) := by
  show (reclaimLoop done _ _).2 = _
  rw [reclaimLoop_events, timeoutJobs_filter_isSome]

theorem collectDone_pending_nodup (done : Nat → Option Outcome) {s : SyncerState}
    (h : s.pending.Nodup) : (collectDone done s).1.pending.Nodup := by
  rw [collectDone_pending]; exact updateTargets_nodup h

theorem collectDone_events_phase (done : Nat → Option Outcome) (s : SyncerState) :
    ∀ e ∈ (collectDone done s).2, phaseOf e = 0 := by
  rw [collectDone_events]
  intro e he
  rcases List.mem_flatMap.mp he with ⟨p, -, hp⟩
  simp only [List.mem_cons, List.mem_singleton, List.not_mem_nil, or_false] at hp
  rcases hp with rfl | rfl <;> rfl

theorem collectDone_inProgress_length_le (done : Nat → Option Outcome)
    (s : SyncerState) :
    (collectDone done s).1.inProgress.length ≤ s.inProgress.length := by
  rw [collectDone_inProgress]; exact List.length_filter_le _ _

/-! ## Lemmas about the dispatch phase (`_schedule`) -/

theorem scheduleGo_nil (avail : Int) (s : SyncerState) (evs : List Event) :
    scheduleGo avail [] s evs = (s, evs) := rfl

theorem scheduleGo_cons (avail : Int) (t : String) (rest : List String)
    (s : SyncerState) (evs : List Event) :
    scheduleGo avail (t :: rest) s evs =
      if avail ≤ 0 then (s, evs)
      else scheduleGo (avail - 1) rest
        { pending := s.pending.erase t
          inProgress := s.inProgress ++ [(s.nextHandle, t)]
          nextHandle := s.nextHandle + 1 }
        (evs ++ [.infoSync t, .submit s.nextHandle t]) := rfl

theorem scheduleGo_events (todo : List String) :
    ∀ (avail : Int) (s : SyncerState) (evs : List Event),
      ∀ e ∈ (scheduleGo avail todo s evs).2, e ∈ evs ∨ phaseOf e = 2 := by
  induction todo with
  | nil => intro avail s evs e he; exact Or.inl he
  | cons t rest ih =>
    intro avail s evs e he
    rw [scheduleGo_cons] at he
    split at he
    · exact Or.inl he
    · rcases ih _ _ _ e he with h | h
      · rcases List.mem_append.mp h with h' | h'
        · exact Or.inl h'
        · right
          simp only [List.mem_cons, List.mem_singleton, List.not_mem_nil, or_false] at h'
          rcases h' with rfl | rfl <;> rfl
      · exact Or.inr h

theorem scheduleGo_submitTargets (todo : List String) :
    ∀ (avail : Int) (s : SyncerState) (evs : List Event),
      submitTargets (scheduleGo avail todo s evs).2 =
        submitTargets evs ++ todo.take avail.toNat := by
  induction todo with
  | nil =>
    intro avail s evs
    rw [scheduleGo_nil, List.take_nil, List.append_nil]
  | cons t rest ih =>
    intro avail s evs
    rw [scheduleGo_cons]
    split
    · rename_i h
      rw [Int.toNat_of_nonpos h]
      simp
    · rename_i h
      rw [ih]
      have h1 : 1 ≤ avail := by omega
      have h2 : avail.toNat = (avail - 1).toNat + 1 := by omega
      rw [h2, List.take_succ_cons]
      simp [submitTargets, List.filterMap_append]

theorem scheduleGo_pending_subset (todo : List String) :
    ∀ (avail : Int) (s : SyncerState) (evs : List Event),
      ∀ x ∈ (scheduleGo avail todo s evs).1.pending, x ∈ s.pending := by
  induction todo with
  | nil => intro avail s evs x hx; exact hx
  | cons t rest ih =>
    intro avail s evs x hx
    rw [scheduleGo_cons] at hx
    split at hx
    · exact hx
    · exact List.mem_of_mem_erase (ih _ _ _ x hx)

theorem scheduleGo_pending_nodup (todo : List String) :
    ∀ (avail : Int) (s : SyncerState) (evs : List Event), s.pending.Nodup →
      (scheduleGo avail todo s evs).1.pending.Nodup := by
  induction todo with
  | nil => intro avail s evs h; exact h
  | cons t rest ih =>
    intro avail s evs h
    rw [scheduleGo_cons]
    split
    · exact h
    · exact ih _ _ _ (h.erase t)

theorem scheduleGo_dispatched_not_pending (todo : List String) :
    ∀ (avail : Int) (s : SyncerState) (evs : List Event), s.pending.Nodup →
      ∀ t ∈ todo.take avail.toNat, t ∉ (scheduleGo avail todo s evs).1.pending := by
  induction todo with
  | nil => intro avail s evs _ t ht; simp at ht
  | cons u rest ih =>
    intro avail s evs hnd t ht
    by_cases h : avail ≤ 0
    · rw [Int.toNat_of_nonpos h] at ht
      simp at ht
    · have h2 : avail.toNat = (avail - 1).toNat + 1 := by omega
      rw [h2, List.take_succ_cons, List.mem_cons] at ht
      rw [scheduleGo_cons, if_neg h]
      rcases ht with rfl | ht
      · intro hmem
        have hsub := scheduleGo_pending_subset rest _ _ _ t hmem
        exact (hnd.mem_erase_iff.mp hsub).1 rfl
      · exact ih _ _ _ (hnd.erase u) t ht

theorem scheduleGo_inProgress_length (todo : List String) :
    ∀ (avail : Int) (s : SyncerState) (evs : List Event),
      (scheduleGo avail todo s evs).1.inProgress.length =
        s.inProgress.length + (todo.take avail.toNat).length := by
  induction todo with
  | nil => intro avail s evs; simp [scheduleGo_nil]
  | cons t rest ih =>
    intro avail s evs
    rw [scheduleGo_cons]
    split
    · rename_i h
      rw [Int.toNat_of_nonpos h]
      simp
    · rename_i h
      rw [ih]
      have h2 : avail.toNat = (avail - 1).toNat + 1 := by omega
      rw [h2, List.take_succ_cons]
      simp
      omega

theorem scheduleGo_pending_count_le (todo : List String) :
    ∀ (avail : Int) (s : SyncerState) (evs : List Event) (x : String),
      (scheduleGo avail todo s evs).1.pending.count x ≤ s.pending.count x := by
  induction todo with
  | nil => intro avail s evs x; exact le_rfl
  | cons t rest ih =>
    intro avail s evs x
    rw [scheduleGo_cons]
    split
    · exact le_rfl
    · exact le_trans (ih _ _ _ x) ((List.erase_sublist t s.pending).count_le x)

theorem schedule_pending_subset (m : Int) (s : SyncerState) :
    ∀ x ∈ (schedule m s).1.pending, x ∈ s.pending := by
  unfold schedule
  split
  · intro x hx; exact hx
  · exact scheduleGo_pending_subset _ _ _ _

theorem schedule_pending_nodup (m : Int) {s : SyncerState} (h : s.pending.Nodup) :
    (schedule m s).1.pending.Nodup := by
  unfold schedule
  split
  · exact h
  · exact scheduleGo_pending_nodup _ _ _ _ h

theorem schedule_events_phase (m : Int) (s : SyncerState) :
    ∀ e ∈ (schedule m s).2, phaseOf e = 2 := by
  unfold schedule
  split
  · intro e he; simp at he
  · intro e he
    rcases scheduleGo_events _ _ _ _ e he with h | h
    · simp at h
    · exact h

theorem schedule_submitTargets_eq (m : Int) (s : SyncerState) :
    submitTargets (schedule m s).2 =
      if (m - (s.inProgress.length : Int) ≤ 0 || s.pending.isEmpty) then []
      else s.pending.take (m - (s.inProgress.length : Int)).toNat := by
  unfold schedule
  split
  · rfl
  · rw [scheduleGo_submitTargets]
    rfl

theorem schedule_submit_subset (m : Int) (s : SyncerState) :
    ∀ t ∈ submitTargets (schedule m s).2, t ∈ s.pending := by
  rw [schedule_submitTargets_eq]
  split
  · intro t ht; simp at ht
  · intro t ht; exact List.take_subset _ _ ht

theorem schedule_submit_nodup (m : Int) {s : SyncerState} (h : s.pending.Nodup) :
    (submitTargets (schedule m s).2).Nodup := by
  rw [schedule_submitTargets_eq]
  split
  · exact List.nodup_nil
  · exact h.sublist (List.take_sublist _ _)

theorem schedule_dispatched_not_pending (m : Int) {s : SyncerState}
    (h : s.pending.Nodup) :
    ∀ t ∈ submitTargets (schedule m s).2, t ∉ (schedule m s).1.pending := by
  intro t ht
  revert ht
  unfold schedule
  split
  · intro ht; simp [submitTargets] at ht
  · intro ht
    rw [scheduleGo_submitTargets] at ht
    simp only [submitTargets, List.filterMap_nil, List.nil_append] at ht
    exact scheduleGo_dispatched_not_pending _ _ _ _ h t ht

theorem schedule_inProgress_length_le (m : Int) (s : SyncerState) :
    ((schedule m s).1.inProgress.length : Int) ≤ max m (s.inProgress.length : Int) := by
  unfold schedule
  split
  · exact le_max_right _ _
  · rename_i h
    rw [scheduleGo_inProgress_length]
    have havail : ¬ (m - (s.inProgress.length : Int) ≤ 0) := by
      intro hc
      simp [hc] at h
    have hlen : ((s.pending.take (m - (s.inProgress.length : Int)).toNat).length : Int)
        ≤ (m - (s.inProgress.length : Int)).toNat := by
      exact_mod_cast List.length_take_le _ _
    push_cast
    have := Int.toNat_of_nonneg
      (by omega : (0 : Int) ≤ m - (s.inProgress.length : Int))
    omega

theorem schedule_submit_length_le (m : Int) (s : SyncerState) :
    ((submitTargets (schedule m s).2).length : Int) ≤
      max (m - (s.inProgress.length : Int)) 0 := by
  rw [schedule_submitTargets_eq]
  split
  · simp
  · rename_i h
    have havail : ¬ (m - (s.inProgress.length : Int) ≤ 0) := by
      intro hc
      simp [hc] at h
    have hlen : ((s.pending.take (m - (s.inProgress.length : Int)).toNat).length : Int)
        ≤ (m - (s.inProgress.length : Int)).toNat := by
      exact_mod_cast List.length_take_le _ _
    omega

theorem schedule_count_sum_le (m : Int) {s : SyncerState} (h : s.pending.Nodup)
    (t : String) :
    (schedule m s).1.pending.count t + (submitTargets (schedule m s).2).count t ≤ 1 := by
  by_cases hmem : t ∈ submitTargets (schedule m s).2
  · have h0 : t ∉ (schedule m s).1.pending := schedule_dispatched_not_pending m h t hmem
    rw [List.count_eq_zero.mpr h0]
    have := List.nodup_iff_count_le_one.mp (schedule_submit_nodup m h) t
    omega
  · rw [List.count_eq_zero.mpr hmem]
    have := List.nodup_iff_count_le_one.mp (schedule_pending_nodup m h) t
    omega

/-! ## Lemmas about the ingest phase (the scan loop of `loop()`) -/

theorem contains_iff_mem {l : List String} {x : String} :
    l.contains x = true ↔ x ∈ l := by
  simp [List.contains]

theorem ingestFiles_cons_some (dirs : List String) (name c : String)
    (rest : List (String × Option String)) :
    ingestFiles dirs ((name, some c) :: rest) =
      match ingestFiles dirs rest with
      | .error e => .error e
      | .ok (cfs, ts, evs) =>
        if isDir dirs (pyPathNorm c) then .ok (name :: cfs, pyPathNorm c :: ts, evs)
        else .ok (name :: cfs, ts, .errorNonexistent name (pyPathNorm c) :: evs) := rfl

theorem ingestFiles_ok_of_reads (dirs : List String)
    (files : List (String × Option String)) (h : ∀ p ∈ files, p.2.isSome) :
    ∃ r, ingestFiles dirs files = .ok r := by
  induction files with
  | nil => exact ⟨([], [], []), rfl⟩
  | cons p rest ih =>
    obtain ⟨name, oc⟩ := p
    rcases oc with _ | c
    · exact absurd (h (name, none) (by simp)) (by simp)
    · obtain ⟨⟨cfs, ts, evs⟩, hr⟩ := ih (fun q hq => h q (List.mem_cons_of_mem _ hq))
      by_cases hd : isDir dirs (pyPathNorm c) = true
      · refine ⟨(name :: cfs, pyPathNorm c :: ts, evs), ?_⟩
        simp only [ingestFiles_cons_some, hr]
        rw [if_pos hd]
      · refine ⟨(name :: cfs, ts, .errorNonexistent name (pyPathNorm c) :: evs), ?_⟩
        simp only [ingestFiles_cons_some, hr]
        rw [if_neg hd]

theorem ingestFiles_cfs {dirs : List String}
    {files : List (String × Option String)} {cfs ts : List String}
    {evs : List Event} (h : ingestFiles dirs files = .ok (cfs, ts, evs)) :
    cfs = files.map Prod.fst := by
  induction files generalizing cfs ts evs with
  | nil =>
    cases h
    rfl
  | cons p rest ih =>
    obtain ⟨name, oc⟩ := p
    rcases oc with _ | c
    · cases h
    · rcases hrec : ingestFiles dirs rest with e | r
      · simp only [ingestFiles_cons_some, hrec] at h
        cases h
      · obtain ⟨cfs', ts', evs'⟩ := r
        simp only [ingestFiles_cons_some, hrec] at h
        split at h <;> (cases h; simpa using ih hrec)

theorem ingestFiles_ts_isDir {dirs : List String}
    {files : List (String × Option String)} {cfs ts : List String}
    {evs : List Event} (h : ingestFiles dirs files = .ok (cfs, ts, evs)) :
    ∀ x ∈ ts, isDir dirs x = true := by
  induction files generalizing cfs ts evs with
  | nil =>
    cases h
    intro x hx
    cases hx
  | cons p rest ih =>
    obtain ⟨name, oc⟩ := p
    rcases oc with _ | c
    · cases h
    · rcases hrec : ingestFiles dirs rest with e | r
      · simp only [ingestFiles_cons_some, hrec] at h
        cases h
      · obtain ⟨cfs', ts', evs'⟩ := r
        simp only [ingestFiles_cons_some, hrec] at h
        split at h
        · rename_i hd
          cases h
          intro x hx
          rcases List.mem_cons.mp hx with rfl | hx'
          · exact hd
          · exact ih hrec x hx'
        · cases h
          exact ih hrec

theorem ingestFiles_events_phase {dirs : List String}
    {files : List (String × Option String)} {cfs ts : List String}
    {evs : List Event} (h : ingestFiles dirs files = .ok (cfs, ts, evs)) :
    ∀ e ∈ evs, phaseOf e = 1 := by
  induction files generalizing cfs ts evs with
  | nil =>
    cases h
    intro e he
    cases he
  | cons p rest ih =>
    obtain ⟨name, oc⟩ := p
    rcases oc with _ | c
    · cases h
    · rcases hrec : ingestFiles dirs rest with e | r
      · simp only [ingestFiles_cons_some, hrec] at h
        cases h
      · obtain ⟨cfs', ts', evs'⟩ := r
        simp only [ingestFiles_cons_some, hrec] at h
        split at h
        · cases h
          exact ih hrec
        · cases h
          intro e he
          rcases List.mem_cons.mp he with rfl | he'
          · rfl
          · exact ih hrec e he'

theorem ingestFiles_events_names {dirs : List String}
    {files : List (String × Option String)} {cfs ts : List String}
    {evs : List Event} (h : ingestFiles dirs files = .ok (cfs, ts, evs)) :
    ∀ f t, Event.errorNonexistent f t ∈ evs → f ∈ files.map Prod.fst := by
  induction files generalizing cfs ts evs with
  | nil =>
    cases h
    intro f t hf
    cases hf
  | cons p rest ih =>
    obtain ⟨name, oc⟩ := p
    rcases oc with _ | c
    · cases h
    · rcases hrec : ingestFiles dirs rest with e | r
      · simp only [ingestFiles_cons_some, hrec] at h
        cases h
      · obtain ⟨cfs', ts', evs'⟩ := r
        simp only [ingestFiles_cons_some, hrec] at h
        split at h
        · cases h
          intro f t hf
          exact List.mem_cons_of_mem _ (ih hrec f t hf)
        · cases h
          intro f t hf
          rcases List.mem_cons.mp hf with heq | hf'
          · cases heq
            simp
          · exact List.mem_cons_of_mem _ (ih hrec f t hf')

theorem ingestFiles_error_count {dirs : List String}
    {files : List (String × Option String)} {cfs ts : List String}
    {evs : List Event} (h : ingestFiles dirs files = .ok (cfs, ts, evs))
    (hnd : (files.map Prod.fst).Nodup) {f c : String}
    (hmem : (f, some c) ∈ files) (hbad : isDir dirs (pyPathNorm c) = false) :
    evs.count (Event.errorNonexistent f (pyPathNorm c)) = 1 := by
  induction files generalizing cfs ts evs with
  | nil => cases hmem
  | cons p rest ih =>
    obtain ⟨name, oc⟩ := p
    rcases oc with _ | d
    · cases h
    · rcases hrec : ingestFiles dirs rest with e | r
      · simp only [ingestFiles_cons_some, hrec] at h
        cases h
      · obtain ⟨cfs', ts', evs'⟩ := r
        simp only [ingestFiles_cons_some, hrec] at h
        have hnd' : (rest.map Prod.fst).Nodup := (List.nodup_cons.mp hnd).2
        by_cases hname : f = name
        · subst hname
          have hnotrest : f ∉ rest.map Prod.fst := by
            simpa using (List.nodup_cons.mp hnd).1
          have hcd : c = d := by
            rcases List.mem_cons.mp hmem with heq | hmem'
            · cases heq; rfl
            · exact absurd (List.mem_map.mpr ⟨(f, some c), hmem', rfl⟩) hnotrest
          subst hcd
          split at h
          · rename_i hd
            rw [hbad] at hd
            cases hd
          · cases h
            rw [List.count_cons_self]
            have hzero :
                evs'.count (Event.errorNonexistent f (pyPathNorm c)) = 0 := by
              rw [List.count_eq_zero]
              intro hin
              exact hnotrest (ingestFiles_events_names hrec f (pyPathNorm c) hin)
            omega
        · have hmem' : (f, some c) ∈ rest := by
            rcases List.mem_cons.mp hmem with heq | hmem'
            · cases heq; exact absurd rfl hname
            · exact hmem'
          split at h
          · cases h
            exact ih hrec hnd' hmem'
          · cases h
            rw [List.count_cons_of_ne (by simp [hname]), ih hrec hnd' hmem']

/-! ## Lemmas about the cleanup phase -/

theorem cleanupFiles_cons (present : List String) (f : String)
    (rest : List String) :
    cleanupFiles present (f :: rest) =
      if present.contains f = true then
        match unlinkFile present f with
        | .error e => .error e
        | .ok present' =>
          match cleanupFiles present' rest with
          | .error e => .error e
          | .ok r => .ok (r.1, Event.deleteFile f :: r.2)
      else cleanupFiles present rest := rfl

theorem cleanupFiles_cons_pos {present : List String} {f : String}
    (hf : present.contains f = true) (rest : List String) :
    cleanupFiles present (f :: rest) =
      match cleanupFiles (present.erase f) rest with
      | .error e => .error e
      | .ok r => .ok (r.1, Event.deleteFile f :: r.2) := by
  rw [cleanupFiles_cons, if_pos hf]
  unfold unlinkFile
  rw [if_pos hf]

theorem cleanupFiles_cons_neg {present : List String} {f : String}
    (hf : ¬ present.contains f = true) (rest : List String) :
    cleanupFiles present (f :: rest) = cleanupFiles present rest := by
  rw [cleanupFiles_cons, if_neg hf]

theorem cleanupFiles_ok (present cfs : List String) :
    ∃ r, cleanupFiles present cfs = .ok r := by
  induction cfs generalizing present with
  | nil => exact ⟨(present, []), rfl⟩
  | cons f rest ih =>
    by_cases hf : present.contains f = true
    · obtain ⟨r, hr⟩ := ih (present.erase f)
      refine ⟨(r.1, Event.deleteFile f :: r.2), ?_⟩
      rw [cleanupFiles_cons_pos hf, hr]
    · rw [cleanupFiles_cons_neg hf]
      exact ih present

theorem cleanupFiles_events_phase {present cfs : List String}
    {r : List String × List Event} (h : cleanupFiles present cfs = .ok r) :
    ∀ e ∈ r.2, phaseOf e = 4 := by
  induction cfs generalizing present r with
  | nil =>
    cases h
    intro e he
    cases he
  | cons f rest ih =>
    by_cases hf : present.contains f = true
    · rw [cleanupFiles_cons_pos hf] at h
      rcases hrec : cleanupFiles (present.erase f) rest with e | r'
      · rw [hrec] at h; cases h
      · rw [hrec] at h
        cases h
        intro e he
        rcases List.mem_cons.mp he with rfl | he'
        · rfl
        · exact ih hrec e he'
    · rw [cleanupFiles_cons_neg hf] at h
      exact ih h

theorem cleanupFiles_events_names {present cfs : List String}
    {r : List String × List Event} (h : cleanupFiles present cfs = .ok r) :
    ∀ g, Event.deleteFile g ∈ r.2 → g ∈ cfs := by
  induction cfs generalizing present r with
  | nil =>
    cases h
    intro g hg
    cases hg
  | cons f rest ih =>
    by_cases hf : present.contains f = true
    · rw [cleanupFiles_cons_pos hf] at h
      rcases hrec : cleanupFiles (present.erase f) rest with e | r'
      · rw [hrec] at h; cases h
      · rw [hrec] at h
        cases h
        intro g hg
        rcases List.mem_cons.mp hg with heq | hg'
        · cases heq
          exact List.mem_cons_self _ _
        · exact List.mem_cons_of_mem _ (ih hrec g hg')
    · rw [cleanupFiles_cons_neg hf] at h
      intro g hg
      exact List.mem_cons_of_mem _ (ih h g hg)

theorem cleanupFiles_count {present cfs : List String}
    {r : List String × List Event} (h : cleanupFiles present cfs = .ok r)
    (hnd : cfs.Nodup) {f : String} (hf : f ∈ cfs) :
    r.2.count (Event.deleteFile f) = if f ∈ present then 1 else 0 := by
  induction cfs generalizing present r with
  | nil => cases hf
  | cons g rest ih =>
    have hnd' : rest.Nodup := (List.nodup_cons.mp hnd).2
    by_cases hg : present.contains g = true
    · rw [cleanupFiles_cons_pos hg] at h
      rcases hrec : cleanupFiles (present.erase g) rest with e | r'
      · rw [hrec] at h; cases h
      · rw [hrec] at h
        cases h
        by_cases hfg : f = g
        · subst hfg
          have hnotrest : f ∉ rest := (List.nodup_cons.mp hnd).1
          have hzero : r'.2.count (Event.deleteFile f) = 0 := by
            rw [List.count_eq_zero]
            intro hin
            exact hnotrest (cleanupFiles_events_names hrec f hin)
          rw [if_pos (contains_iff_mem.mp hg), List.count_cons_self, hzero]
        · have hfrest : f ∈ rest := by
            rcases List.mem_cons.mp hf with rfl | hf'
            · exact absurd rfl hfg
            · exact hf'
          rw [List.count_cons_of_ne (by simp [hfg]), ih hrec hnd' hfrest]
          by_cases hfp : f ∈ present
          · rw [if_pos ((List.mem_erase_of_ne hfg).mpr hfp), if_pos hfp]
          · rw [if_neg (fun hc => hfp (List.mem_of_mem_erase hc)), if_neg hfp]
    · rw [cleanupFiles_cons_neg hg] at h
      by_cases hfg : f = g
      · subst hfg
        have hnotrest : f ∉ rest := (List.nodup_cons.mp hnd).1
        have hzero : r.2.count (Event.deleteFile f) = 0 := by
          rw [List.count_eq_zero]
          intro hin
          exact hnotrest (cleanupFiles_events_names h f hin)
        rw [hzero, if_neg (fun hc => hg (contains_iff_mem.mpr hc))]
      · have hfrest : f ∈ rest := by
          rcases List.mem_cons.mp hf with rfl | hf'
          · exact absurd rfl hfg
          · exact hf'
        exact ih h hnd' hfrest

/-! ## Structure of one cycle -/

theorem cycleE_inv {cfg : Config} {env : Env} {s s' : SyncerState}
    {tr : List Event} (h : cycleE cfg env s = .ok (s', tr)) :
    ∃ cfs ts evs2 p4 evs4,
      ingestFiles (cycleDirs cfg env) env.files = .ok (cfs, ts, evs2) ∧
      cleanupFiles env.stillPresent cfs = .ok (p4, evs4) ∧
      s' = (schedule cfg.maxWorkers
        { (collectDone (lookupOutcome env.doneOutcome) s).1 with
          pending := updateTargets
            (collectDone (lookupOutcome env.doneOutcome) s).1.pending ts }).1 ∧
      tr = (collectDone (lookupOutcome env.doneOutcome) s).2 ++ evs2 ++
        (schedule cfg.maxWorkers
          { (collectDone (lookupOutcome env.doneOutcome) s).1 with
            pending := updateTargets
              (collectDone (lookupOutcome env.doneOutcome) s).1.pending ts }).2 ++
        [Event.fixedSleep] ++ evs4 ++
        (if cfg.testMode then [] else [Event.throttleSleep]) := by
  rcases hing : ingestFiles (cycleDirs cfg env) env.files with e | r
  · simp only [cycleE, hing] at h
    cases h
  · obtain ⟨cfs, ts, evs2⟩ := r
    simp only [cycleE, hing] at h
    rcases hcl : cleanupFiles env.stillPresent cfs with e | r4
    · simp only [hcl] at h
      cases h
    · simp only [hcl] at h
      cases h
      exact ⟨cfs, ts, evs2, r4.1, r4.2, rfl, hcl, rfl, rfl⟩

/-! ## Invariants of reachable scheduler states -/

theorem reachable_pending_nodup {cfg : Config} {s : SyncerState}
    (h : Reachable cfg s) : s.pending.Nodup := by
  induction h with
  | init => exact List.nodup_nil
  | step env s s' tr hr heq ih =>
    obtain ⟨cfs, ts, evs2, p4, evs4, hing, hcl, hs', htr⟩ := cycleE_inv heq
    subst hs'
    exact schedule_pending_nodup _
      (updateTargets_nodup (collectDone_pending_nodup _ ih))
  | drain out s hr ih =>
    unfold waitForAll
    split
    · exact ih
    · exact collectDone_pending_nodup _ ih

theorem reachable_inflight_bound {cfg : Config} {s : SyncerState}
    (h : Reachable cfg s) :
    (s.inProgress.length : Int) ≤ max cfg.maxWorkers 0 := by
  induction h with
  | init => exact le_max_right _ _
  | step env s s' tr hr heq ih =>
    obtain ⟨cfs, ts, evs2, p4, evs4, hing, hcl, hs', htr⟩ := cycleE_inv heq
    subst hs'
    have h2 := schedule_inProgress_length_le cfg.maxWorkers
      { (collectDone (lookupOutcome env.doneOutcome) s).1 with
        pending := updateTargets
          (collectDone (lookupOutcome env.doneOutcome) s).1.pending ts }
    have hmideq : ({ (collectDone (lookupOutcome env.doneOutcome) s).1 with
        pending := updateTargets
          (collectDone (lookupOutcome env.doneOutcome) s).1.pending ts} :
        SyncerState).inProgress =
        (collectDone (lookupOutcome env.doneOutcome) s).1.inProgress := rfl
    rw [hmideq] at h2
    have hle : ((collectDone (lookupOutcome env.doneOutcome) s).1.inProgress.length : Int)
        ≤ (s.inProgress.length : Int) := by
      exact_mod_cast collectDone_inProgress_length_le (lookupOutcome env.doneOutcome) s
    exact le_trans h2 (max_le (le_max_left _ _) (le_trans (le_trans hle ih) le_rfl))
  | drain out s hr ih =>
    unfold waitForAll
    split
    · exact ih
    · have hle : ((collectDone (fun h => some (out h)) s).1.inProgress.length : Int)
          ≤ (s.inProgress.length : Int) := by
        exact_mod_cast collectDone_inProgress_length_le (fun h => some (out h)) s
      omega

/-! ## Helpers for reasoning about event traces -/

theorem count_eq_zero_of_phase {l : List Event} {c : Nat} {e : Event}
    (h : ∀ x ∈ l, phaseOf x = c) (hne : phaseOf e ≠ c) : l.count e = 0 := by
  rw [List.count_eq_zero]
  intro hc
  exact hne (h e hc)

theorem submitTargets_append (l1 l2 : List Event) :
    submitTargets (l1 ++ l2) = submitTargets l1 ++ submitTargets l2 :=
  List.filterMap_append _ _ _

theorem mem_submitTargets_of_mem {l : List Event} {hdl : Nat} {t : String}
    (h : Event.submit hdl t ∈ l) : t ∈ submitTargets l :=
  List.mem_filterMap.mpr ⟨Event.submit hdl t, h, rfl⟩

theorem submitTargets_eq_nil_of_phase {l : List Event} {c : Nat}
    (h : ∀ e ∈ l, phaseOf e = c) (hc : c ≠ 2) : submitTargets l = [] := by
  unfold submitTargets
  rw [List.filterMap_eq_nil_iff]
  intro e he
  cases e
  case submit hdl t => exact absurd (h _ he).symm hc
  all_goals rfl

theorem not_submit_mem_of_phase {l : List Event} {c : Nat}
    (h : ∀ e ∈ l, phaseOf e = c) (hc : c ≠ 2) :
    ∀ (hdl : Nat) (t : String), Event.submit hdl t ∉ l := by
  intro hdl t hm
  exact hc (h _ hm).symm

theorem pairwise_phase_const {l : List Event} {c : Nat}
    (h : ∀ e ∈ l, phaseOf e = c) :
    l.Pairwise (fun a b => phaseOf a ≤ phaseOf b) := by
  induction l with
  | nil => exact List.Pairwise.nil
  | cons x xs ih =>
    refine List.Pairwise.cons ?_ (ih fun e he => h e (List.mem_cons_of_mem _ he))
    intro b hb
    rw [h x (List.mem_cons_self _ _), h b (List.mem_cons_of_mem _ hb)]

theorem pairwise_phase_append_le {l1 l2 : List Event} {c : Nat}
    (h1 : ∀ e ∈ l1, phaseOf e ≤ c) (h2 : ∀ e ∈ l2, c ≤ phaseOf e)
    (p1 : l1.Pairwise (fun a b => phaseOf a ≤ phaseOf b))
    (p2 : l2.Pairwise (fun a b => phaseOf a ≤ phaseOf b)) :
    (l1 ++ l2).Pairwise (fun a b => phaseOf a ≤ phaseOf b) :=
  List.pairwise_append.mpr ⟨p1, p2, fun a ha b hb => le_trans (h1 a ha) (h2 b hb)⟩

theorem phase_bound_append {l1 l2 : List Event} {c : Nat}
    (h1 : ∀ e ∈ l1, phaseOf e ≤ c) (h2 : ∀ e ∈ l2, phaseOf e ≤ c) :
    ∀ e ∈ l1 ++ l2, phaseOf e ≤ c := by
  intro e he
  rcases List.mem_append.mp he with h | h
  · exact h1 e h
  · exact h2 e h

/-! ## Further dispatch and ingest lemmas -/

theorem scheduleGo_pending_keep (todo : List String) :
    ∀ (avail : Int) (s : SyncerState) (evs : List Event), s.pending.Nodup →
      ∀ t, t ∈ s.pending → t ∉ todo.take avail.toNat →
        t ∈ (scheduleGo avail todo s evs).1.pending := by
  induction todo with
  | nil => intro avail s evs _ t ht _; exact ht
  | cons u rest ih =>
    intro avail s evs hnd t ht htk
    by_cases h : avail ≤ 0
    · rw [scheduleGo_cons, if_pos h]
      exact ht
    · have h2 : avail.toNat = (avail - 1).toNat + 1 := by omega
      rw [h2, List.take_succ_cons] at htk
      have htu : t ≠ u := fun hc => htk (hc ▸ List.mem_cons_self _ _)
      have htk' : t ∉ rest.take (avail - 1).toNat :=
        fun hc => htk (List.mem_cons_of_mem _ hc)
      rw [scheduleGo_cons, if_neg h]
      exact ih _ _ _ (hnd.erase u) t ((List.mem_erase_of_ne htu).mpr ht) htk'

theorem schedule_pending_or_submitted (m : Int) {s : SyncerState}
    (hnd : s.pending.Nodup) {t : String} (ht : t ∈ s.pending) :
    t ∈ (schedule m s).1.pending ∨ t ∈ submitTargets (schedule m s).2 := by
  rw [schedule_submitTargets_eq]
  unfold schedule
  split
  · exact Or.inl ht
  · by_cases hmem : t ∈ s.pending.take (m - (s.inProgress.length : Int)).toNat
    · exact Or.inr hmem
    · exact Or.inl (scheduleGo_pending_keep _ _ _ _ hnd t ht hmem)

theorem ingestFiles_ts_of_valid {dirs : List String}
    {files : List (String × Option String)} {cfs ts : List String}
    {evs : List Event} (h : ingestFiles dirs files = .ok (cfs, ts, evs))
    {f c : String} (hf : (f, some c) ∈ files)
    (hd : isDir dirs (pyPathNorm c) = true) : pyPathNorm c ∈ ts := by
  induction files generalizing cfs ts evs with
  | nil => cases hf
  | cons p rest ih =>
    obtain ⟨name, oc⟩ := p
    rcases oc with _ | d
    · cases h
    · rcases hrec : ingestFiles dirs rest with e | r
      · simp only [ingestFiles_cons_some, hrec] at h
        cases h
      · obtain ⟨cfs', ts', evs'⟩ := r
        simp only [ingestFiles_cons_some, hrec] at h
        rcases List.mem_cons.mp hf with heq | hf'
        · cases heq
          split at h
          · cases h
            exact List.mem_cons_self _ _
          · rename_i hdd
            exact absurd hd hdd
        · split at h
          · cases h
            exact List.mem_cons_of_mem _ (ih hrec hf')
          · cases h
            exact ih hrec hf'

/-! ## Totality of a cycle in the absence of read errors -/

theorem cycleE_ok_of_reads (cfg : Config) (env : Env) (s : SyncerState)
    (h : ∀ p ∈ env.files, p.2.isSome) :
    ∃ r, cycleE cfg env s = .ok r := by
  obtain ⟨⟨cfs, ts, evs⟩, hing⟩ :=
    ingestFiles_ok_of_reads (cycleDirs cfg env) env.files h
  obtain ⟨r4, hcl⟩ := cleanupFiles_ok env.stillPresent cfs
  rcases hres : cycleE cfg env s with e | r
  · exfalso
    simp only [cycleE, hing, hcl] at hres
    cases hres
  · exact ⟨r, rfl⟩

/-! ## Claim C1 (code bug): the throttle sleeps in the wrong direction -/

/-- C1: the claim says the throttle sleeps so that each cycle lasts at least
the configured poll wait, never sleeping a negative duration.  The code
(`syncer.py` line 87) computes `time.sleep(max(0.0, (time.time() - start_time)
- self.wait))`, i.e. `max(0, elapsed - wait)` instead of
`max(0, wait - elapsed)`.  The non-negativity half holds, but a quick cycle
(elapsed 1/4 s, wait 1 s) sleeps 0 and the cycle lasts 1/4 s < 1 s, and a slow
cycle (elapsed 2 s, wait 1 s) needlessly sleeps 1 extra second — the exact
inversion of the specified behaviour and of the constructor docstring
("Minimal time to wait before scanning command dir again"). -/
theorem c1_throttle_wrong_direction :
    (∀ e w : ℚ, 0 ≤ throttleDuration e w) ∧
    throttleDuration (1/4) 1 = 0 ∧
    (1/4 : ℚ) + throttleDuration (1/4) 1 < 1 ∧
    throttleDuration 2 1 = 1 := by
  have h0 : throttleDuration (1/4 : ℚ) 1 = 0 := by
    unfold throttleDuration
    rw [max_eq_left (by norm_num : (1/4 : ℚ) - 1 ≤ 0)]
  refine ⟨fun e w => le_max_left 0 _, h0, ?_, ?_⟩
  · rw [h0]
    norm_num
  · unfold throttleDuration
    rw [max_eq_right (by norm_num : (0 : ℚ) ≤ 2 - 1)]
    norm_num

/-! ## Claim C3: the In-Flight Table never exceeds `maxWorkers` -/

/-- C3: for every reachable scheduler state under a configuration with
`maxWorkers ≥ 1`, the In-Flight Table holds at most `maxWorkers` jobs, and a
dispatch pass from such a state submits at most `maxWorkers − |In-Flight|`
new jobs. -/
theorem c3_inflight_bounded (cfg : Config) (s : SyncerState)
    (hmw : 1 ≤ cfg.maxWorkers) (hr : Reachable cfg s) :
    (s.inProgress.length : Int) ≤ cfg.maxWorkers ∧
    ((submitTargets (schedule cfg.maxWorkers s).2).length : Int) ≤
      cfg.maxWorkers - (s.inProgress.length : Int) := by
  have hb := reachable_inflight_bound hr
  have h1 : (s.inProgress.length : Int) ≤ cfg.maxWorkers := by
    rcases max_cases cfg.maxWorkers (0 : Int) with ⟨hm, _⟩ | ⟨hm, _⟩ <;> omega
  refine ⟨h1, ?_⟩
  have h2 := schedule_submit_length_le cfg.maxWorkers s
  rcases max_cases (cfg.maxWorkers - (s.inProgress.length : Int)) (0 : Int) with
    ⟨hm, _⟩ | ⟨hm, _⟩ <;> omega

def cfgC3 : Config := ⟨"/cmd", 1, 120, 1, false⟩

/-- Witness for C3 at the initial state of a `maxWorkers = 1` configuration. -/
theorem c3_inflight_bounded_witness :
    (initState.inProgress.length : Int) ≤ cfgC3.maxWorkers :=
  (c3_inflight_bounded cfgC3 initState (by decide) Reachable.init).1

/-! ## Claim C10: `mkdir(parents=True, exist_ok=True)` at cycle start -/

/-- C10: the directory set every cycle scans against always contains the
command directory and all of its ancestors (created by
`self.command_dir.mkdir(parents=True, exist_ok=True)` at the top of the
cycle, which never fails thanks to `exist_ok`), and keeps every directory
that already existed. -/
theorem c10_mkdir_creates_commandDir (cfg : Config) (env : Env) :
    resolveLex cfg.commandDir ∈ cycleDirs cfg env ∧
    (∀ d ∈ ancestorPaths cfg.commandDir, d ∈ cycleDirs cfg env) ∧
    (∀ x ∈ env.dirs, x ∈ cycleDirs cfg env) := by
  refine ⟨?_, ?_, ?_⟩
  · apply mem_updateTargets.mpr
    right
    unfold ancestorPaths resolveLex
    exact List.mem_map.mpr ⟨(normComps cfg.commandDir).length,
      List.mem_range.mpr (Nat.lt_succ_self _), by rw [List.take_length]⟩
  · intro d hd
    exact mem_updateTargets.mpr (Or.inr hd)
  · intro x hx
    exact mem_updateTargets.mpr (Or.inl hx)

/-! ## Claim C2 (corrected): Pending/In-Flight exclusivity fails -/

def cfgC2 : Config := ⟨"/cmd", 0, 120, 2, false⟩

def cfgC2one : Config := ⟨"/cmd", 0, 120, 1, false⟩

def envC2a : Env :=
  ⟨[("a.command", some "/data/run1")], ["/data/run1"], [], ["a.command"], 0, []⟩

def envC2b : Env :=
  ⟨[("b.command", some "/data/run1")], ["/data/run1"], [], ["b.command"], 0, []⟩

def stateC2mid : SyncerState := ⟨[], [(0, "/data/run1")], 1⟩

def stateC2 : SyncerState := ⟨[], [(0, "/data/run1"), (1, "/data/run1")], 2⟩

def stateC2one : SyncerState := ⟨["/data/run1"], [(0, "/data/run1")], 1⟩

/-- C2 counterexample: ingest does not consult the In-Flight Table.  With
`maxWorkers = 2`, a command file naming a target whose job is still running
leads to the target being dispatched a second time — it then sits in the
In-Flight Table twice.  With `maxWorkers = 1` the same two cycles leave the
target simultaneously in the Pending Set and the In-Flight Table.  Both
reachable states refute the claimed invariant. -/
theorem c2_counterexample :
    (Reachable cfgC2 stateC2 ∧
      (stateC2.inProgress.map Prod.snd).count "/data/run1" = 2) ∧
    (Reachable cfgC2one stateC2one ∧
      "/data/run1" ∈ stateC2one.pending ∧
      "/data/run1" ∈ stateC2one.inProgress.map Prod.snd) := by
  constructor
  · refine ⟨Reachable.step envC2b stateC2mid stateC2
      [.infoSync "/data/run1", .submit 1 "/data/run1", .fixedSleep,
        .deleteFile "b.command", .throttleSleep]
      (Reachable.step envC2a initState stateC2mid
        [.infoSync "/data/run1", .submit 0 "/data/run1", .fixedSleep,
          .deleteFile "a.command", .throttleSleep]
        Reachable.init (by decide)) (by decide), by decide⟩
  · refine ⟨Reachable.step envC2b stateC2mid stateC2one
      [.fixedSleep, .deleteFile "b.command", .throttleSleep]
      (Reachable.step envC2a initState stateC2mid
        [.infoSync "/data/run1", .submit 0 "/data/run1", .fixedSleep,
          .deleteFile "a.command", .throttleSleep]
        Reachable.init (by decide)) (by decide), by decide, by decide⟩

/-- C2 amended: what the code does guarantee is (a) the Pending Set never
holds duplicates (set semantics), and (b) a dispatch pass removes each Target
from Pending before inserting it into In-Flight, so one pass submits each
pending Target at most once and what it submits is gone from Pending.  The
original exclusivity claim fails because ingest and requeue never check the
In-Flight Table (`c2_counterexample`). -/
theorem c2_amended (cfg : Config) (s : SyncerState) (m : Int)
    (hr : Reachable cfg s) :
    s.pending.Nodup ∧
    (submitTargets (schedule m s).2).Nodup ∧
    ∀ t ∈ submitTargets (schedule m s).2, t ∉ (schedule m s).1.pending := by
  have hnd := reachable_pending_nodup hr
  exact ⟨hnd, schedule_submit_nodup m hnd, schedule_dispatched_not_pending m hnd⟩

/-- Witness for C2 (amended) at a concrete reachable state. -/
theorem c2_amended_witness :
    stateC2.pending.Nodup ∧ (submitTargets (schedule 2 stateC2).2).Nodup := by
  have h := c2_amended cfgC2 stateC2 2
    (Reachable.step envC2b stateC2mid stateC2
      [.infoSync "/data/run1", .submit 1 "/data/run1", .fixedSleep,
        .deleteFile "b.command", .throttleSleep]
      (Reachable.step envC2a initState stateC2mid
        [.infoSync "/data/run1", .submit 0 "/data/run1", .fixedSleep,
          .deleteFile "a.command", .throttleSleep]
        Reachable.init (by decide)) (by decide))
  exact ⟨h.1, h.2.1⟩

/-! ## Claim C4: reclaim removes every finished job and requeues timeouts -/

/-- C4: for each in-flight job observed complete, `_collect_done` removes it
from the In-Flight Table; on a timeout outcome it logs a warning and requeues
the Target in two steps (writes a fresh command file via the hook and
re-inserts the Target into the Pending Set); on a success or non-timeout
failure outcome it is dropped with no requeue (no warning, no command-file
write, and the Pending Set membership of its target is unchanged). -/
theorem c4_reclaim_requeues_timeouts (done : Nat → Option Outcome)
    (s : SyncerState) (hdl : Nat) (t : String) (o : Outcome)
    (hmem : (hdl, t) ∈ s.inProgress) (hdone : done hdl = some o) :
    ((hdl, t) ∉ (collectDone done s).1.inProgress) ∧
    (o = .timeout →
      Event.warnTimeout t ∈ (collectDone done s).2 ∧
      Event.writeCommandFile t ∈ (collectDone done s).2 ∧
      pyPathNorm t ∈ (collectDone done s).1.pending) ∧
    (o ≠ .timeout →
      (∀ p ∈ s.inProgress, done p.1 = some .timeout →
        pyPathNorm p.2 ≠ pyPathNorm t) →
      Event.writeCommandFile t ∉ (collectDone done s).2 ∧
      Event.warnTimeout t ∉ (collectDone done s).2 ∧
      (pyPathNorm t ∈ (collectDone done s).1.pending ↔
        pyPathNorm t ∈ s.pending)) := by
  refine ⟨?_, ?_, ?_⟩
  · rw [collectDone_inProgress]
    intro hc
    have h2 := (List.mem_filter.mp hc).2
    rw [hdone] at h2
    simp at h2
  · intro ho
    subst ho
    have htj : (hdl, t) ∈ timeoutJobs done s.inProgress := by
      unfold timeoutJobs
      refine List.mem_filter.mpr ⟨hmem, ?_⟩
      simp [hdone]
    refine ⟨?_, ?_, ?_⟩
    · rw [collectDone_events]
      exact List.mem_flatMap.mpr ⟨(hdl, t), htj, by simp⟩
    · rw [collectDone_events]
      exact List.mem_flatMap.mpr ⟨(hdl, t), htj, by simp⟩
    · rw [collectDone_pending]
      exact mem_updateTargets.mpr (Or.inr (List.mem_map.mpr ⟨(hdl, t), htj, rfl⟩))
  · intro ho hno
    have hkey : ∀ p ∈ timeoutJobs done s.inProgress,
        pyPathNorm p.2 ≠ pyPathNorm t := by
      intro p hp
      have h1 := List.mem_filter.mp hp
      have h2 : done p.1 = some .timeout := by simpa using h1.2
      exact hno p h1.1 h2
    refine ⟨?_, ?_, ?_⟩
    · rw [collectDone_events]
      intro hc
      rcases List.mem_flatMap.mp hc with ⟨p, hp, hin⟩
      simp only [List.mem_cons, List.mem_singleton, List.not_mem_nil, or_false] at hin
      rcases hin with h | h
      · cases h
      · injection h with ht
        exact hkey p hp (by rw [ht])
    · rw [collectDone_events]
      intro hc
      rcases List.mem_flatMap.mp hc with ⟨p, hp, hin⟩
      simp only [List.mem_cons, List.mem_singleton, List.not_mem_nil, or_false] at hin
      rcases hin with h | h
      · injection h with ht
        exact hkey p hp (by rw [ht])
      · cases h
    · rw [collectDone_pending]
      constructor
      · intro hc
        rcases mem_updateTargets.mp hc with h | h
        · exact h
        · rcases List.mem_map.mp h with ⟨p, hp, he⟩
          exact absurd he (hkey p hp)
      · intro hc
        exact mem_updateTargets.mpr (Or.inl hc)

def doneC4 : Nat → Option Outcome :=
  lookupOutcome [(0, Outcome.timeout), (1, Outcome.success)]

def stateC4 : SyncerState := ⟨[], [(0, "/data/run1"), (1, "/data/run2")], 2⟩

/-- Witness for C4: a concrete table with one timed-out and one succeeded
job. -/
theorem c4_reclaim_requeues_timeouts_witness :
    Event.warnTimeout "/data/run1" ∈ (collectDone doneC4 stateC4).2 ∧
    Event.writeCommandFile "/data/run1" ∈ (collectDone doneC4 stateC4).2 ∧
    pyPathNorm "/data/run1" ∈ (collectDone doneC4 stateC4).1.pending ∧
    ((0, "/data/run1") ∉ (collectDone doneC4 stateC4).1.inProgress) := by
  have h := c4_reclaim_requeues_timeouts doneC4 stateC4 0 "/data/run1"
    Outcome.timeout (by decide) (by decide)
  exact ⟨(h.2.1 rfl).1, (h.2.1 rfl).2.1, (h.2.1 rfl).2.2, h.1⟩

/-! ## Claim C5: invalid targets are never scheduled and error exactly once -/

/-- C5: a command file whose content names a path that is not an existing
directory never causes a submission to the worker pool, never puts its target
into the Pending Set, and yields exactly one error log entry carrying both
the command file name and the target path.  (The last two hypotheses rule out
the same normalized target independently entering through the prior state or
through a timeout requeue in the same cycle.) -/
theorem c5_invalid_target_isolated {cfg : Config} {env : Env}
    {s s' : SyncerState} {tr : List Event} {f c : String}
    (hok : cycleE cfg env s = .ok (s', tr))
    (hf : (f, some c) ∈ env.files)
    (hnd : (env.files.map Prod.fst).Nodup)
    (hbad : isDir (cycleDirs cfg env) (pyPathNorm c) = false)
    (hpend : pyPathNorm c ∉ s.pending)
    (hreq : ∀ p ∈ s.inProgress,
      lookupOutcome env.doneOutcome p.1 = some .timeout →
      pyPathNorm p.2 ≠ pyPathNorm c) :
    (∀ hdl : Nat, Event.submit hdl (pyPathNorm c) ∉ tr) ∧
    pyPathNorm c ∉ s'.pending ∧
    tr.count (Event.errorNonexistent f (pyPathNorm c)) = 1 := by
  obtain ⟨cfs, ts, evs2, p4, evs4, hing, hcl, hs', htr⟩ := cycleE_inv hok
  have hnotmid : pyPathNorm c ∉
      ({ (collectDone (lookupOutcome env.doneOutcome) s).1 with
        pending := updateTargets
          (collectDone (lookupOutcome env.doneOutcome) s).1.pending ts } :
        SyncerState).pending := by
    intro hcmem
    rcases mem_updateTargets.mp hcmem with h | h
    · rw [collectDone_pending] at h
      rcases mem_updateTargets.mp h with h' | h'
      · exact hpend h'
      · rcases List.mem_map.mp h' with ⟨p, hp, he⟩
        have h1 := List.mem_filter.mp hp
        have h2 : lookupOutcome env.doneOutcome p.1 = some .timeout := by
          simpa using h1.2
        exact hreq p h1.1 h2 he
    · rw [ingestFiles_ts_isDir hing _ h] at hbad
      cases hbad
  subst hs'
  subst htr
  refine ⟨?_, ?_, ?_⟩
  · intro hdl hcmem
    simp only [List.mem_append] at hcmem
    rcases hcmem with ((((h | h) | h) | h) | h) | h
    · exact not_submit_mem_of_phase (collectDone_events_phase _ _)
        (by decide) hdl (pyPathNorm c) h
    · exact not_submit_mem_of_phase (ingestFiles_events_phase hing)
        (by decide) hdl (pyPathNorm c) h
    · exact hnotmid (schedule_submit_subset _ _ _ (mem_submitTargets_of_mem h))
    · rw [List.mem_singleton] at h
      cases h
    · exact not_submit_mem_of_phase (cleanupFiles_events_phase hcl)
        (by decide) hdl (pyPathNorm c) h
    · by_cases ht : cfg.testMode = true
      · rw [if_pos ht] at h
        cases h
      · rw [if_neg ht] at h
        rw [List.mem_singleton] at h
        cases h
  · intro hcmem
    exact hnotmid (schedule_pending_subset _ _ _ hcmem)
  · rw [List.count_append, List.count_append, List.count_append,
      List.count_append, List.count_append]
    have h0 : (collectDone (lookupOutcome env.doneOutcome) s).2.count
        (Event.errorNonexistent f (pyPathNorm c)) = 0 :=
      count_eq_zero_of_phase (collectDone_events_phase _ _) Nat.one_ne_zero
    have h1 : evs2.count (Event.errorNonexistent f (pyPathNorm c)) = 1 :=
      ingestFiles_error_count hing hnd hf hbad
    have h2 : (schedule cfg.maxWorkers
        { (collectDone (lookupOutcome env.doneOutcome) s).1 with
          pending := updateTargets
            (collectDone (lookupOutcome env.doneOutcome) s).1.pending ts }).2.count
        (Event.errorNonexistent f (pyPathNorm c)) = 0 :=
      count_eq_zero_of_phase (schedule_events_phase _ _) (by simp [phaseOf])
    have h3 : ([Event.fixedSleep].count
        (Event.errorNonexistent f (pyPathNorm c))) = 0 :=
      count_eq_zero_of_phase
        (by intro e he; rw [List.mem_singleton] at he; subst he; rfl)
        (by simp [phaseOf])
    have h4 : evs4.count (Event.errorNonexistent f (pyPathNorm c)) = 0 :=
      count_eq_zero_of_phase (cleanupFiles_events_phase hcl) (by simp [phaseOf])
    have h5 : ((if cfg.testMode then [] else [Event.throttleSleep]).count
        (Event.errorNonexistent f (pyPathNorm c))) = 0 := by
      by_cases ht : cfg.testMode = true
      · rw [if_pos ht]
        rfl
      · rw [if_neg ht]
        exact count_eq_zero_of_phase
          (by intro e he; rw [List.mem_singleton] at he; subst he; rfl)
          (by simp [phaseOf])
    rw [h0, h1, h2, h3, h4, h5]

def cfgC5 : Config := ⟨"/cmd", 0, 120, 1, false⟩

def envC5 : Env := ⟨[("bad.command", some "/nope")], [], [], ["bad.command"], 0, []⟩

/-- Witness for C5: one command file naming a non-existent directory. -/
theorem c5_invalid_target_isolated_witness :
    pyPathNorm "/nope" ∉ initState.pending ∧
    [Event.errorNonexistent "bad.command" "/nope", Event.fixedSleep,
      Event.deleteFile "bad.command", Event.throttleSleep].count
      (Event.errorNonexistent "bad.command" (pyPathNorm "/nope")) = 1 := by
  have hok : cycleE cfgC5 envC5 initState = .ok (initState,
      [Event.errorNonexistent "bad.command" "/nope", Event.fixedSleep,
        Event.deleteFile "bad.command", Event.throttleSleep]) := by decide
  have hf : ("bad.command", some "/nope") ∈ envC5.files := by decide
  have h := c5_invalid_target_isolated hok hf
    (by decide) (by decide) (by decide) (by decide)
  exact ⟨h.2.1, h.2.2⟩

/-! ## Claim C6 (corrected): read errors are fatal; everything else is local -/

def cfgC6 : Config := ⟨"/cmd", 1, 120, 1, false⟩

def envC6 : Env := ⟨[("bad.command", none)], [], [], [], 0, []⟩

/-- C6 counterexample: the scan loop calls `command_file.read_text()` with no
exception handling, so a read error on a single command file propagates and
terminates the scheduler loop even though the external stop signal
(`testMode`) is off — contradicting the claim that read errors are logged,
the file skipped, and never fatal. -/
theorem c6_counterexample :
    cfgC6.testMode = false ∧
    runCycles cfgC6 [envC6] initState = .error "read error on bad.command" :=
  ⟨rfl, by decide⟩

/-- C6 amended: directory-missing errors on individual command files and
per-job outcomes (timeouts included) are local — as long as every command
file read succeeds, no cycle and hence no run of the loop ever raises, so
only the explicit stop signal can end the loop; a read error on a command
file, however, propagates and terminates the loop (`c6_counterexample`). -/
theorem c6_loop_survives_local_errors (cfg : Config) (envs : List Env) :
    ∀ s : SyncerState, (∀ env ∈ envs, ∀ p ∈ env.files, p.2.isSome) →
      ∃ r, runCycles cfg envs s = .ok r := by
  induction envs with
  | nil =>
    intro s _
    exact ⟨(s, false), rfl⟩
  | cons env rest ih =>
    intro s hreads
    obtain ⟨⟨s1, tr⟩, hcy⟩ := cycleE_ok_of_reads cfg env s
      (hreads env (List.mem_cons_self _ _))
    simp only [runCycles, hcy]
    by_cases ht : cfg.testMode = true
    · rw [if_pos ht]
      exact ⟨_, rfl⟩
    · rw [if_neg ht]
      exact ih s1 (fun e he => hreads e (List.mem_cons_of_mem _ he))

def envC6w : Env := ⟨[("x.command", some "/nope")], [], [], ["x.command"], 0, []⟩

/-- Witness for C6 (amended): a cycle with a directory-missing error still
completes and the loop keeps running. -/
theorem c6_loop_survives_local_errors_witness :
    ∃ r, runCycles cfgC6 [envC6w] initState = .ok r :=
  c6_loop_survives_local_errors cfgC6 [envC6w] initState (by decide)

/-! ## Claim C7: the phases of a cycle run in a fixed order -/

theorem phase_le_of_eq {l : List Event} {c c' : Nat}
    (h : ∀ e ∈ l, phaseOf e = c) (hcc : c ≤ c') : ∀ e ∈ l, phaseOf e ≤ c' :=
  fun e he => (h e he) ▸ hcc

theorem phase_ge_of_eq {l : List Event} {c c' : Nat}
    (h : ∀ e ∈ l, phaseOf e = c) (hcc : c' ≤ c) : ∀ e ∈ l, c' ≤ phaseOf e :=
  fun e he => (h e he) ▸ hcc

/-- C7: the trace of every successful cycle is sorted by phase — all reclaim
events (timeout warnings and requeue command-file writes) precede all ingest
events (invalid-target errors), which precede all dispatch events (sync-info
logs and submissions), which precede the fixed sleep, which precedes all
cleanup deletions, which precede the throttle sleep; and every deleted file
is one of the command files recorded during this cycle's ingest. -/
theorem c7_phase_order {cfg : Config} {env : Env} {s s' : SyncerState}
    {tr : List Event} (hok : cycleE cfg env s = .ok (s', tr)) :
    tr.Pairwise (fun a b => phaseOf a ≤ phaseOf b) ∧
    ∀ f, Event.deleteFile f ∈ tr → f ∈ env.files.map Prod.fst := by
  obtain ⟨cfs, ts, evs2, p4, evs4, hing, hcl, hs', htr⟩ := cycleE_inv hok
  subst htr
  have hA := collectDone_events_phase (lookupOutcome env.doneOutcome) s
  have hB := ingestFiles_events_phase hing
  have hC := schedule_events_phase cfg.maxWorkers
    { (collectDone (lookupOutcome env.doneOutcome) s).1 with
      pending := updateTargets
        (collectDone (lookupOutcome env.doneOutcome) s).1.pending ts }
  have hF : ∀ e ∈ [Event.fixedSleep], phaseOf e = 3 := by
    intro e he
    rw [List.mem_singleton] at he
    subst he
    rfl
  have hD := cleanupFiles_events_phase hcl
  have hE : ∀ e ∈ (if cfg.testMode then [] else [Event.throttleSleep]),
      phaseOf e = 5 := by
    by_cases ht : cfg.testMode = true
    · rw [if_pos ht]
      intro e he
      cases he
    · rw [if_neg ht]
      intro e he
      rw [List.mem_singleton] at he
      subst he
      rfl
  constructor
  · have q1 := pairwise_phase_append_le (c := 1)
      (phase_le_of_eq hA (by norm_num)) (phase_ge_of_eq hB le_rfl)
      (pairwise_phase_const hA) (pairwise_phase_const hB)
    have b1 := phase_bound_append (c := 1)
      (phase_le_of_eq hA (by norm_num)) (phase_le_of_eq hB le_rfl)
    have q2 := pairwise_phase_append_le (c := 2)
      (fun e he => le_trans (b1 e he) (by norm_num)) (phase_ge_of_eq hC le_rfl)
      q1 (pairwise_phase_const hC)
    have b2 := phase_bound_append (c := 2)
      (fun e he => le_trans (b1 e he) (by norm_num)) (phase_le_of_eq hC le_rfl)
    have q3 := pairwise_phase_append_le (c := 3)
      (fun e he => le_trans (b2 e he) (by norm_num)) (phase_ge_of_eq hF le_rfl)
      q2 (pairwise_phase_const hF)
    have b3 := phase_bound_append (c := 3)
      (fun e he => le_trans (b2 e he) (by norm_num)) (phase_le_of_eq hF le_rfl)
    have q4 := pairwise_phase_append_le (c := 4)
      (fun e he => le_trans (b3 e he) (by norm_num)) (phase_ge_of_eq hD le_rfl)
      q3 (pairwise_phase_const hD)
    have b4 := phase_bound_append (c := 4)
      (fun e he => le_trans (b3 e he) (by norm_num)) (phase_le_of_eq hD le_rfl)
    exact pairwise_phase_append_le (c := 5)
      (fun e he => le_trans (b4 e he) (by norm_num)) (phase_ge_of_eq hE le_rfl)
      q4 (pairwise_phase_const hE)
  · intro f hfm
    simp only [List.mem_append] at hfm
    rcases hfm with ((((h | h) | h) | h) | h) | h
    · have := hA _ h
      simp [phaseOf] at this
    · have := hB _ h
      simp [phaseOf] at this
    · have := hC _ h
      simp [phaseOf] at this
    · rw [List.mem_singleton] at h
      cases h
    · rw [← ingestFiles_cfs hing]
      exact cleanupFiles_events_names hcl f h
    · have := hE _ h
      simp [phaseOf] at this

def cfgC7 : Config := ⟨"/cmd", 0, 120, 2, false⟩

def envC7 : Env :=
  ⟨[("bad.command", some "/nope"), ("good.command", some "/data/new")],
    ["/data/new"], [(0, Outcome.timeout)], ["bad.command", "good.command"], 0, []⟩

def stateC7 : SyncerState := ⟨[], [(0, "/data/old")], 1⟩

/-- Witness for C7: one full cycle exercising every phase (a timeout reclaim,
an invalid and a valid command file, two dispatches, two deletions, and the
throttle sleep). -/
theorem c7_phase_order_witness :
    ([Event.warnTimeout "/data/old", Event.writeCommandFile "/data/old",
      Event.errorNonexistent "bad.command" "/nope",
      Event.infoSync "/data/old", Event.submit 1 "/data/old",
      Event.infoSync "/data/new", Event.submit 2 "/data/new",
      Event.fixedSleep, Event.deleteFile "bad.command",
      Event.deleteFile "good.command",
      Event.throttleSleep]).Pairwise (fun a b => phaseOf a ≤ phaseOf b) := by
  have hok : cycleE cfgC7 envC7 stateC7 =
      .ok (⟨[], [(1, "/data/old"), (2, "/data/new")], 3⟩,
        [Event.warnTimeout "/data/old", Event.writeCommandFile "/data/old",
          Event.errorNonexistent "bad.command" "/nope",
          Event.infoSync "/data/old", Event.submit 1 "/data/old",
          Event.infoSync "/data/new", Event.submit 2 "/data/new",
          Event.fixedSleep, Event.deleteFile "bad.command",
          Event.deleteFile "good.command",
          Event.throttleSleep]) := by decide
  exact (c7_phase_order hok).1

/-! ## Claim C8 (corrected): Target identity is syntactic, not resolved -/

def cfgC8 : Config := ⟨"/cmd", 0, 120, 1, false⟩

def envC8a : Env :=
  ⟨[("f.command", some "/data/filler")], ["/data/filler", "/data/run"], [],
    ["f.command"], 0, []⟩

def envC8b : Env :=
  ⟨[("a.command", some "/data/x/../run"), ("b.command", some "/data/run")],
    ["/data/filler", "/data/run"], [], ["a.command", "b.command"], 0, []⟩

def stateC8mid : SyncerState := ⟨[], [(0, "/data/filler")], 1⟩

def stateC8 : SyncerState :=
  ⟨["/data/x/../run", "/data/run"], [(0, "/data/filler")], 1⟩

/-- C8 counterexample: Target identity is `Path(content)`, which does not
resolve `..`.  Two command files whose contents denote the same directory
under full path normalization (`/data/x/../run` and `/data/run`, equal under
`resolveLex`) produce two distinct entries in the Pending Set of a reachable
state — the scheduler treats them as two Targets, refuting the claim that the
Pending Set holds at most one entry for that directory. -/
theorem c8_counterexample :
    Reachable cfgC8 stateC8 ∧
    "/data/x/../run" ∈ stateC8.pending ∧
    "/data/run" ∈ stateC8.pending ∧
    "/data/x/../run" ≠ "/data/run" ∧
    resolveLex "/data/x/../run" = resolveLex "/data/run" := by
  refine ⟨Reachable.step envC8b stateC8mid stateC8
    [.fixedSleep, .deleteFile "a.command", .deleteFile "b.command",
      .throttleSleep]
    (Reachable.step envC8a initState stateC8mid
      [.infoSync "/data/filler", .submit 0 "/data/filler", .fixedSleep,
        .deleteFile "f.command", .throttleSleep]
      Reachable.init (by decide)) (by decide),
    by decide, by decide, by decide, by decide⟩

/-- C8 amended: Target identity is the string form of Python's `Path` applied
to the file content (`pyPathNorm`): a purely syntactic normalization that
collapses repeated separators and `.` segments but neither resolves `..` nor
absolutizes relative paths.  Command files whose contents agree under this
normalization are one Target: if its directory exists, the end of the cycle
has it pending or submitted, and across the Pending Set and this cycle's
submissions it occurs at most once.  Contents denoting the same directory
only after `..`-resolution are distinct Targets (`c8_counterexample`). -/
theorem c8_amended {cfg : Config} {env : Env} {s s' : SyncerState}
    {tr : List Event} {f1 f2 c1 c2 : String}
    (hok : cycleE cfg env s = .ok (s', tr))
    (hnd : s.pending.Nodup)
    (h1 : (f1, some c1) ∈ env.files) (h2 : (f2, some c2) ∈ env.files)
    (heq : pyPathNorm c1 = pyPathNorm c2) :
    s'.pending.Nodup ∧
    (isDir (cycleDirs cfg env) (pyPathNorm c1) = true →
      pyPathNorm c2 ∈ s'.pending ∨ pyPathNorm c2 ∈ submitTargets tr) ∧
    (isDir (cycleDirs cfg env) (pyPathNorm c2) = true →
      pyPathNorm c1 ∈ s'.pending ∨ pyPathNorm c1 ∈ submitTargets tr) ∧
    s'.pending.count (pyPathNorm c2) + (submitTargets tr).count (pyPathNorm c2)
      ≤ 1 := by
  obtain ⟨cfs, ts, evs2, p4, evs4, hing, hcl, hs', htr⟩ := cycleE_inv hok
  have hmidnd : ({ (collectDone (lookupOutcome env.doneOutcome) s).1 with
      pending := updateTargets
        (collectDone (lookupOutcome env.doneOutcome) s).1.pending ts } :
      SyncerState).pending.Nodup :=
    updateTargets_nodup (collectDone_pending_nodup _ hnd)
  have hF : ∀ e ∈ [Event.fixedSleep], phaseOf e = 3 := by
    intro e he
    rw [List.mem_singleton] at he
    subst he
    rfl
  have hE : ∀ e ∈ (if cfg.testMode then [] else [Event.throttleSleep]),
      phaseOf e = 5 := by
    by_cases ht : cfg.testMode = true
    · rw [if_pos ht]
      intro e he
      cases he
    · rw [if_neg ht]
      intro e he
      rw [List.mem_singleton] at he
      subst he
      rfl
  subst hs'
  subst htr
  have hsub : submitTargets
      ((collectDone (lookupOutcome env.doneOutcome) s).2 ++ evs2 ++
        (schedule cfg.maxWorkers
          { (collectDone (lookupOutcome env.doneOutcome) s).1 with
            pending := updateTargets
              (collectDone (lookupOutcome env.doneOutcome) s).1.pending ts }).2 ++
        [Event.fixedSleep] ++ evs4 ++
        (if cfg.testMode then [] else [Event.throttleSleep])) =
      submitTargets (schedule cfg.maxWorkers
        { (collectDone (lookupOutcome env.doneOutcome) s).1 with
          pending := updateTargets
            (collectDone (lookupOutcome env.doneOutcome) s).1.pending ts }).2 := by
    rw [submitTargets_append, submitTargets_append, submitTargets_append,
      submitTargets_append, submitTargets_append,
      submitTargets_eq_nil_of_phase (collectDone_events_phase _ _) (by decide),
      submitTargets_eq_nil_of_phase (ingestFiles_events_phase hing) (by decide),
      submitTargets_eq_nil_of_phase hF (by decide),
      submitTargets_eq_nil_of_phase (cleanupFiles_events_phase hcl) (by decide),
      submitTargets_eq_nil_of_phase hE (by decide)]
    simp
  rw [hsub]
  refine ⟨schedule_pending_nodup _ hmidnd, ?_, ?_, ?_⟩
  · intro hd
    have hts : pyPathNorm c1 ∈ ts := ingestFiles_ts_of_valid hing h1 hd
    have hmid : pyPathNorm c1 ∈
        ({ (collectDone (lookupOutcome env.doneOutcome) s).1 with
          pending := updateTargets
            (collectDone (lookupOutcome env.doneOutcome) s).1.pending ts } :
          SyncerState).pending :=
      mem_updateTargets.mpr (Or.inr hts)
    rw [← heq]
    exact schedule_pending_or_submitted cfg.maxWorkers hmidnd hmid
  · intro hd
    have hts : pyPathNorm c2 ∈ ts := ingestFiles_ts_of_valid hing h2 hd
    have hmid : pyPathNorm c2 ∈
        ({ (collectDone (lookupOutcome env.doneOutcome) s).1 with
          pending := updateTargets
            (collectDone (lookupOutcome env.doneOutcome) s).1.pending ts } :
          SyncerState).pending :=
      mem_updateTargets.mpr (Or.inr hts)
    rw [heq]
    exact schedule_pending_or_submitted cfg.maxWorkers hmidnd hmid
  · rw [← heq]
    exact schedule_count_sum_le cfg.maxWorkers hmidnd (pyPathNorm c1)

def envC8w : Env :=
  ⟨[("a.command", some "/data//run/."), ("b.command", some "/data/run")],
    ["/data/run"], [], ["a.command", "b.command"], 0, []⟩

/-- Witness for C8 (amended): two spellings of one Target that agree under
the syntactic normalization are dispatched once. -/
theorem c8_amended_witness :
    (([] : List String)).Nodup ∧
    ([] : List String).count (pyPathNorm "/data/run") +
      (submitTargets [Event.infoSync "/data/run", Event.submit 0 "/data/run",
        Event.fixedSleep, Event.deleteFile "a.command",
        Event.deleteFile "b.command", Event.throttleSleep]).count
        (pyPathNorm "/data/run") ≤ 1 := by
  have hok : cycleE cfgC8 envC8w initState =
      .ok (⟨[], [(0, "/data/run")], 1⟩,
        [Event.infoSync "/data/run", Event.submit 0 "/data/run",
          Event.fixedSleep, Event.deleteFile "a.command",
          Event.deleteFile "b.command", Event.throttleSleep]) := by decide
  have h1 : ("a.command", some "/data//run/.") ∈ envC8w.files := by decide
  have h2 : ("b.command", some "/data/run") ∈ envC8w.files := by decide
  have h := c8_amended hok (by decide) h1 h2 (by decide)
  exact ⟨h.1, h.2.2.2⟩

/-! ## Claim C9: cleanup deletes each read command file exactly once -/

/-- C9: in every successful cycle, each command file read during the scan is
deleted exactly once if it is still on disk when the cleanup pass runs, and
not at all if it has concurrently disappeared — the `is_file` guard makes the
deletion attempt on an already-gone file a no-op instead of an exception, and
the cleanup pass as a whole never fails; only files recorded during this
cycle's scan are ever deleted. -/
theorem c9_cleanup_idempotent {cfg : Config} {env : Env} {s s' : SyncerState}
    {tr : List Event} {f : String} {oc : Option String}
    (hok : cycleE cfg env s = .ok (s', tr))
    (hnd : (env.files.map Prod.fst).Nodup)
    (hf : (f, oc) ∈ env.files) :
    tr.count (Event.deleteFile f) = (if f ∈ env.stillPresent then 1 else 0) ∧
    (∀ g, Event.deleteFile g ∈ tr → g ∈ env.files.map Prod.fst) ∧
    (∀ (present cfs2 : List String), ∃ r, cleanupFiles present cfs2 = .ok r) := by
  obtain ⟨cfs, ts, evs2, p4, evs4, hing, hcl, hs', htr⟩ := cycleE_inv hok
  have hcfs := ingestFiles_cfs hing
  subst htr
  refine ⟨?_, ?_, fun present cfs2 => cleanupFiles_ok present cfs2⟩
  · rw [List.count_append, List.count_append, List.count_append,
      List.count_append, List.count_append]
    have h0 : (collectDone (lookupOutcome env.doneOutcome) s).2.count
        (Event.deleteFile f) = 0 :=
      count_eq_zero_of_phase (collectDone_events_phase _ _) (by simp [phaseOf])
    have h1 : evs2.count (Event.deleteFile f) = 0 :=
      count_eq_zero_of_phase (ingestFiles_events_phase hing) (by simp [phaseOf])
    have h2 : (schedule cfg.maxWorkers
        { (collectDone (lookupOutcome env.doneOutcome) s).1 with
          pending := updateTargets
            (collectDone (lookupOutcome env.doneOutcome) s).1.pending ts }).2.count
        (Event.deleteFile f) = 0 :=
      count_eq_zero_of_phase (schedule_events_phase _ _) (by simp [phaseOf])
    have h3 : ([Event.fixedSleep].count (Event.deleteFile f)) = 0 :=
      count_eq_zero_of_phase
        (by intro e he; rw [List.mem_singleton] at he; subst he; rfl)
        (by simp [phaseOf])
    have h4 : evs4.count (Event.deleteFile f) =
        if f ∈ env.stillPresent then 1 else 0 := by
      refine cleanupFiles_count hcl ?_ ?_
      · rw [hcfs]
        exact hnd
      · rw [hcfs]
        exact List.mem_map.mpr ⟨(f, oc), hf, rfl⟩
    have h5 : ((if cfg.testMode then [] else [Event.throttleSleep]).count
        (Event.deleteFile f)) = 0 := by
      by_cases ht : cfg.testMode = true
      · rw [if_pos ht]
        rfl
      · rw [if_neg ht]
        exact count_eq_zero_of_phase
          (by intro e he; rw [List.mem_singleton] at he; subst he; rfl)
          (by simp [phaseOf])
    rw [h0, h1, h2, h3, h4, h5]
    omega
  · intro g hg
    simp only [List.mem_append] at hg
    rcases hg with ((((h | h) | h) | h) | h) | h
    · have := collectDone_events_phase (lookupOutcome env.doneOutcome) s _ h
      simp [phaseOf] at this
    · have := ingestFiles_events_phase hing _ h
      simp [phaseOf] at this
    · have := schedule_events_phase cfg.maxWorkers _ _ h
      simp [phaseOf] at this
    · rw [List.mem_singleton] at h
      cases h
    · rw [← hcfs]
      exact cleanupFiles_events_names hcl g h
    · by_cases ht : cfg.testMode = true
      · rw [if_pos ht] at h
        cases h
      · rw [if_neg ht] at h
        rw [List.mem_singleton] at h
        cases h

def cfgC9 : Config := ⟨"/cmd", 0, 120, 1, false⟩

def envC9 : Env :=
  ⟨[("a.command", some "/nope"), ("b.command", some "/nope2")], [], [],
    ["b.command"], 0, []⟩

/-- Witness for C9: of two command files read this cycle, the one that
disappeared before cleanup is not deleted (and nothing raises), the one still
on disk is deleted exactly once. -/
theorem c9_cleanup_idempotent_witness :
    ([Event.errorNonexistent "a.command" "/nope",
      Event.errorNonexistent "b.command" "/nope2", Event.fixedSleep,
      Event.deleteFile "b.command", Event.throttleSleep].count
      (Event.deleteFile "a.command") = 0) ∧
    ([Event.errorNonexistent "a.command" "/nope",
      Event.errorNonexistent "b.command" "/nope2", Event.fixedSleep,
      Event.deleteFile "b.command", Event.throttleSleep].count
      (Event.deleteFile "b.command") = 1) := by
  have hok : cycleE cfgC9 envC9 initState =
      .ok (initState,
        [Event.errorNonexistent "a.command" "/nope",
          Event.errorNonexistent "b.command" "/nope2", Event.fixedSleep,
          Event.deleteFile "b.command", Event.throttleSleep]) := by decide
  have hfa : ("a.command", some "/nope") ∈ envC9.files := by decide
  have hfb : ("b.command", some "/nope2") ∈ envC9.files := by decide
  have ha := c9_cleanup_idempotent hok (by decide) hfa
  have hb := c9_cleanup_idempotent hok (by decide) hfb
  exact ⟨ha.1.trans (by decide), hb.1.trans (by decide)⟩

end WandbOsh
